import Mathlib

/-!
# cafetrack: a shallow embedding of `main.go` and its verified properties

The program is a command-line tab tracker.  Its persistent state is three files in
`~/.cafetrack` (`db.json`, `log.txt`, `config.json`); every command loads the ledger,
performs one operation, and writes the ledger back.

Modelling conventions.

* `uint32` values are natural numbers reduced modulo `2^32`, `int64` values are integers
  reduced to the two's-complement range by `wrap64`.
* `float64` values are modelled exactly: a finite double is a signed dyadic number
  `m * 2^e`, and every floating-point operation of the program (decimal-to-binary
  conversion, multiplication and division by 100, conversion to a decimal text) is the
  exact rational result rounded once, to nearest, ties to even, as IEEE 754 prescribes.
* The file system is a record holding the decoded content of the three files.  Reads and
  writes succeed (the program ignores their errors), and JSON encoding followed by
  decoding is the identity on the stored values.
* The clock and the line typed at a prompt are inputs of the operations.
* The library functions the program calls (`strconv.ParseFloat`, `strconv.ParseUint`,
  `fmt.Scanln`, the verbs of `fmt`, `sha256.Sum256`, `hex.EncodeToString`) are embedded
  as executable definitions.
-/

namespace Cafetrack

/-! ## Machine integers -/

/-- Reduction of an integer to the range of `int64` (two's-complement wrap-around). -/
def wrap64 (x : Int) : Int :=
  (x + 2 ^ 63) % 2 ^ 64 - 2 ^ 63

/-- Reduction of a natural number to the range of `uint32`. -/
def wrap32 (n : Nat) : Nat :=
  n % 2 ^ 32

/-- The least `int64`. -/
def minInt64 : Int := -(2 ^ 63)

/-- The greatest `int64`. -/
def maxInt64 : Int := 2 ^ 63 - 1

/-! ## Binary floating point -/

/-- A `float64` value.  `fin neg m e` is the number `(-1)^neg * m * 2^e`. -/
inductive F64 where
  | fin (neg : Bool) (m : Nat) (e : Int)
  | inf (neg : Bool)
  | nan
  deriving DecidableEq, Repr

/-- Quotient `N / D` rounded to the nearest natural number, ties to even. -/
def roundHalfEven (N D : Nat) : Nat :=
  let q := N / D
  let r := N % D
  if 2 * r < D then q
  else if D < 2 * r then q + 1
  else if q % 2 = 0 then q else q + 1

/-- Binary logarithm rounded down, by repeated halving; `fuel` bounds the number of
halvings. -/
def log2Fuel : Nat → Nat → Nat
  | 0, _ => 0
  | fuel + 1, n => if 2 ≤ n then log2Fuel fuel (n / 2) + 1 else 0

/-- Binary logarithm rounded down (`0` at `0`). -/
def log2 (n : Nat) : Nat :=
  log2Fuel n n

/-- The exponent `E` with `2^E ≤ n / d < 2^(E+1)`, for positive `n` and `d`. -/
def binade (n d : Nat) : Int :=
  let k : Int := (log2 n : Int) - (log2 d : Int)
  if d * 2 ^ k.toNat ≤ n * 2 ^ (-k).toNat then k else k - 1

/-- The double nearest to the rational `(-1)^neg * n / d` (`d` positive): 53 significant
bits, least exponent `-1074`, ties to even, overflow to infinity. -/
def roundF64 (neg : Bool) (n d : Nat) : F64 :=
  if n = 0 then F64.fin neg 0 0
  else
    let e : Int := max (binade n d - 52) (-1074)
    let m := roundHalfEven (n * 2 ^ (-e).toNat) (d * 2 ^ e.toNat)
    if 971 < e ∨ (e = 971 ∧ 2 ^ 53 ≤ m) then F64.inf neg else F64.fin neg m e

/-- Floating-point product `x * k` for a positive integer constant `k`. -/
def F64.mulNat (x : F64) (k : Nat) : F64 :=
  match x with
  | F64.fin neg m e => roundF64 neg (m * k * 2 ^ e.toNat) (2 ^ (-e).toNat)
  | F64.inf neg => F64.inf neg
  | F64.nan => F64.nan

/-- Floating-point quotient `x / k` for a positive integer constant `k`. -/
def F64.divNat (x : F64) (k : Nat) : F64 :=
  match x with
  | F64.fin neg m e => roundF64 neg (m * 2 ^ e.toNat) (k * 2 ^ (-e).toNat)
  | F64.inf neg => F64.inf neg
  | F64.nan => F64.nan

/-- The conversion `float64(c)` of an `int64`. -/
def F64.ofInt (c : Int) : F64 :=
  roundF64 (decide (c < 0)) c.natAbs 1

/-- The conversion `int64(x)`: truncation toward zero.  For a value outside the range of
`int64` (and for infinities and NaN) Go leaves the result to the implementation; the
model takes the amd64 result, the least `int64`. -/
def F64.toInt64 (x : F64) : Int :=
  match x with
  | F64.fin neg m e =>
    let t : Int := ((m * 2 ^ e.toNat / 2 ^ (-e).toNat : Nat) : Int)
    let v : Int := if neg then -t else t
    if minInt64 ≤ v ∧ v ≤ maxInt64 then v else minInt64
  | F64.inf _ => minInt64
  | F64.nan => minInt64

/-! ## `strconv.ParseFloat` -/

/-- Whether the character is an ASCII decimal digit. -/
def isDigit (c : Char) : Bool :=
  decide (48 ≤ c.toNat ∧ c.toNat ≤ 57)

/-- The value of an ASCII decimal digit. -/
def digitVal (c : Char) : Nat :=
  c.toNat - 48

/-- ASCII lower-casing of a letter. -/
def lowerAscii (c : Char) : Char :=
  if 65 ≤ c.toNat ∧ c.toNat ≤ 90 then Char.ofNat (c.toNat + 32) else c

/-- Whether the character is one of the hexadecimal digits `a` to `f`, in either case. -/
def isHexLetter (c : Char) : Bool :=
  decide (97 ≤ (lowerAscii c).toNat ∧ (lowerAscii c).toNat ≤ 102)

/-- The value of a hexadecimal digit `a` to `f`. -/
def hexLetterVal (c : Char) : Nat :=
  (lowerAscii c).toNat - 97 + 10

/-- State of the mantissa scan of `readFloat`: the digits read so far as a number in the
base of the numeral, how many of them follow the point, and the flags of the scanner. -/
structure Mantissa where
  digits : Nat
  frac : Nat
  sawdot : Bool
  sawdigits : Bool
  underscores : Bool
  deriving DecidableEq, Repr

/-- The mantissa loop of `readFloat`: digits (hexadecimal ones when `hex`) with at most
one point, underscores skipped and noted.  Returns the state and the unread rest. -/
def readMantissa (hex : Bool) : List Char → Mantissa → Mantissa × List Char
  | [], st => (st, [])
  | c :: cs, st =>
    if c = '_' then readMantissa hex cs { st with underscores := true }
    else if c = '.' then
      if st.sawdot then (st, c :: cs)
      else readMantissa hex cs { st with sawdot := true }
    else if isDigit c then
      readMantissa hex cs
        { st with
          digits := st.digits * (if hex then 16 else 10) + digitVal c
          frac := if st.sawdot then st.frac + 1 else st.frac
          sawdigits := true }
    else if hex && isHexLetter c then
      readMantissa hex cs
        { st with
          digits := st.digits * 16 + hexLetterVal c
          frac := if st.sawdot then st.frac + 1 else st.frac
          sawdigits := true }
    else (st, c :: cs)

/-- The exponent-digit loop of `readFloat`: underscores are skipped and noted, and the
accumulator stops growing once it has reached 10000.  Returns the exponent, whether an
underscore was met, and the unread rest. -/
def readExpDigits : List Char → Nat → Bool → Nat × Bool × List Char
  | [], e, u => (e, u, [])
  | c :: cs, e, u =>
    if c = '_' then readExpDigits cs e true
    else if isDigit c then
      readExpDigits cs (if e < 10000 then e * 10 + digitVal c else e) u
    else (e, u, c :: cs)

/-- The exponent part of `readFloat`, introduced by `expChar` (`e`, or `p` for a
hexadecimal mantissa, which must have one).  Returns the signed exponent, whether an
underscore was met, and the unread rest; `none` on a syntax error. -/
def readExponent (hex : Bool) (s : List Char) : Option (Int × Bool × List Char) :=
  let expChar : Char := if hex then 'p' else 'e'
  match s with
  | [] => if hex then none else some (0, false, [])
  | c :: cs =>
    if lowerAscii c = expChar then
      let (neg, ds) : Bool × List Char :=
        match cs with
        | '+' :: r => (false, r)
        | '-' :: r => (true, r)
        | r => (false, r)
      match ds with
      | [] => none
      | d :: _ =>
        if isDigit d then
          let (e, u, rest) := readExpDigits ds 0 false
          some (if neg then -(e : Int) else (e : Int), u, rest)
        else none
    else if hex then none
    else some (0, false, c :: cs)

/-- The loop of `underscoreOK` over the number proper; `saw` is the kind of the last
character: `'0'` a digit, `'_'` an underscore, `'!'` anything else, `'^'` the start. -/
def underscoreLoop (hex : Bool) : List Char → Char → Bool
  | [], saw => saw != '_'
  | c :: cs, saw =>
    if isDigit c || (hex && isHexLetter c) then underscoreLoop hex cs '0'
    else if c = '_' then
      if saw != '0' then false else underscoreLoop hex cs '_'
    else if saw = '_' then false
    else underscoreLoop hex cs '!'

/-- The function `underscoreOK` of `strconv`: an underscore must stand between digits, or
between a base prefix and a digit. -/
def underscoreOK (s : List Char) : Bool :=
  let s : List Char :=
    match s with
    | '+' :: r => r
    | '-' :: r => r
    | r => r
  match s with
  | '0' :: b :: r =>
    if lowerAscii b = 'b' ∨ lowerAscii b = 'o' ∨ lowerAscii b = 'x' then
      underscoreLoop (lowerAscii b = 'x') r '0'
    else underscoreLoop false s '^'
  | _ => underscoreLoop false s '^'

/-- Length of the longest common prefix of `s` and the lower-case word `w`, ignoring the
case of `s`. -/
def commonPrefixLenIgnoreCase : List Char → List Char → Nat
  | c :: cs, d :: ds => if lowerAscii c = d then commonPrefixLenIgnoreCase cs ds + 1 else 0
  | _, _ => 0

/-- The function `special` of `strconv`: the words `inf`, `infinity` (optionally signed)
and `nan`, in any case.  Returns the value and the number of characters consumed. -/
def special (s : List Char) : Option (F64 × Nat) :=
  let infWord (neg : Bool) (nsign : Nat) (t : List Char) : Option (F64 × Nat) :=
    let n := commonPrefixLenIgnoreCase t "infinity".toList
    let n := if 3 < n ∧ n < 8 then 3 else n
    if n = 3 ∨ n = 8 then some (F64.inf neg, nsign + n) else none
  match s with
  | [] => none
  | c :: cs =>
    if c = '+' then infWord false 1 cs
    else if c = '-' then infWord true 1 cs
    else if c = 'i' ∨ c = 'I' then infWord false 0 (c :: cs)
    else if c = 'n' ∨ c = 'N' then
      if commonPrefixLenIgnoreCase (c :: cs) "nan".toList = 3 then some (F64.nan, 3) else none
    else none

/-- The function `readFloat` of `strconv`: optional sign, optional prefix `0x`, digits
with an optional point, exponent.  Returns the sign, the exact value of the numeral as a
fraction `n / d`, and the unread rest; `none` on a syntax error. -/
def readFloat (s : List Char) : Option (Bool × Nat × Nat × List Char) :=
  let (neg, body) : Bool × List Char :=
    match s with
    | '+' :: r => (false, r)
    | '-' :: r => (true, r)
    | r => (false, r)
  let (hex, body) : Bool × List Char :=
    match body with
    | '0' :: x :: c :: r => if lowerAscii x = 'x' then (true, c :: r) else (false, body)
    | r => (false, r)
  let (mant, rest) := readMantissa hex body ⟨0, 0, false, false, false⟩
  if mant.sawdigits then
    match readExponent hex rest with
    | none => none
    | some (e, u, rest') =>
      if (mant.underscores || u) && !underscoreOK (s.take (s.length - rest'.length)) then none
      else if hex then
        let p : Int := e - 4 * (mant.frac : Int)
        some (neg, mant.digits * 2 ^ p.toNat, 2 ^ (-p).toNat, rest')
      else
        let p : Int := e - (mant.frac : Int)
        some (neg, mant.digits * 10 ^ p.toNat, 10 ^ (-p).toNat, rest')
  else none

/-- Model of `f, _ := strconv.ParseFloat(s, 64)`: the double nearest to the numeral, ties
to even; `±Inf` when the numeral is out of range; `0` on a syntax error, which includes
unread characters after the numeral. -/
def parseFloat (s : String) : F64 :=
  let cs := s.toList
  match special cs with
  | some (v, n) => if n = cs.length then v else F64.fin false 0 0
  | none =>
    match readFloat cs with
    | some (neg, n, d, []) => roundF64 neg n d
    | _ => F64.fin false 0 0

/-! ## Monetary encoding -/

/-- Embedding of `centsFromString`: `int64(f * 100)` for the parsed double `f`. -/
def centsFromString (s : String) : Int :=
  ((parseFloat s).mulNat 100).toInt64

/-- Decimal digits of a natural number. -/
def natToString (n : Nat) : String :=
  toString n

/-- The verb `%.2f`: the exact value of the double rounded to two decimals, ties to
even, as `strconv.FormatFloat(x, 'f', 2, 64)` prints it. -/
def F64.format2 (x : F64) : String :=
  match x with
  | F64.fin neg m e =>
    let h := roundHalfEven (m * 100 * 2 ^ e.toNat) (2 ^ (-e).toNat)
    let frac := h % 100
    (if neg then "-" else "") ++ natToString (h / 100) ++ "."
      ++ natToString (frac / 10) ++ natToString (frac % 10)
  | F64.inf neg => if neg then "-Inf" else "+Inf"
  | F64.nan => "NaN"

/-- Embedding of `formatCents`: `Sprintf("%.2f", float64(c)/100)`. -/
def formatCents (c : Int) : String :=
  ((F64.ofInt c).divNat 100).format2

/-! ## Data model and persistent store -/

/-- One unpaid charge (`type Entry`).  `ID` holds a `uint32`, `Price` and `Created` hold
an `int64`. -/
structure Entry where
  ID : Nat
  Item : String
  Price : Int
  Created : Int
  deriving DecidableEq, Repr

/-- The ledger document (`type DB`). -/
structure DB where
  Balance : Int
  Entries : List Entry
  deriving DecidableEq, Repr

/-- The access configuration document (`type Config`). -/
structure Config where
  PasswordHash : String
  deriving DecidableEq, Repr

/-- One line of `log.txt`: the time stamp it was written with and the message. -/
structure LogLine where
  stamp : Int
  text : String
  deriving DecidableEq, Repr

/-- The state the program acts on: the directory `~/.cafetrack` with its three files, and
what has been written to standard output.  An absent `log.txt` reads as no lines. -/
structure World where
  dir : Bool
  db : Option DB
  log : List LogLine
  config : Option Config
  out : List String
  deriving DecidableEq, Repr

/-- Embedding of `dataDir`: the directory is created when it does not exist. -/
def dataDir (w : World) : World :=
  { w with dir := true }

/-- Embedding of `loadDB`: the stored ledger, or the empty ledger when there is no file. -/
def loadDB (w : World) : DB :=
  match w.db with
  | some db => db
  | none => { Balance := 0, Entries := [] }

/-- Embedding of `saveDB`: the ledger file is overwritten. -/
def saveDB (w : World) (db : DB) : World :=
  { dataDir w with db := some db }

/-- Embedding of `logAction`: one line is appended to the log. -/
def logAction (w : World) (now : Int) (s : String) : World :=
  { dataDir w with log := w.log ++ [{ stamp := now, text := s }] }

/-- The call `fmt.Print(s)`. -/
def print (w : World) (s : String) : World :=
  { w with out := w.out ++ [s] }

/-- The call `fmt.Println(s)`. -/
def println (w : World) (s : String) : World :=
  { w with out := w.out ++ [s ++ "\n"] }

/-! ## Ledger operations -/

/-- Embedding of `nextID`: the loop keeps the greatest id seen, starting from `0`; the
result is that maximum plus one in `uint32` arithmetic. -/
def nextID (entries : List Entry) : Nat :=
  wrap32 (entries.foldl (fun max e => if e.ID > max then e.ID else max) 0 + 1)

/-- Embedding of `add`. -/
def add (w : World) (now : Int) (item priceStr : String) : World :=
  let db := loadDB w
  let price := centsFromString priceStr
  let id := nextID db.Entries
  let db : DB :=
    { db with
      Entries := db.Entries ++ [{ ID := id, Item := item, Price := price, Created := now }] }
  let w := saveDB w db
  let w := logAction w now ("ADD id=" ++ natToString id ++ " price=" ++ priceStr)
  println w ("ID: " ++ natToString id)

/-- The verb `%-20s`: the text padded with blanks on the right to twenty characters. -/
def padRight20 (s : String) : String :=
  s ++ String.mk (List.replicate (20 - s.length) ' ')

/-- Embedding of `listUnpaid`. -/
def listUnpaid (w : World) : World :=
  let db := loadDB w
  db.Entries.foldl
    (fun w e =>
      print w (natToString e.ID ++ " | " ++ padRight20 e.Item ++ " | "
        ++ formatCents e.Price ++ "\n"))
    (dataDir w)

/-- Embedding of `showBalance`. -/
def showBalance (w : World) : World :=
  let db := loadDB w
  println (dataDir w) ("Balance: " ++ formatCents db.Balance)

/-- The digit loop of `strconv.ParseUint(s, 10, 32)`: a character that is not a digit
ends the call with `0`, a value above `2^32 - 1` ends it with `2^32 - 1`. -/
def parseUintLoop : List Char → Nat → Nat
  | [], n => n
  | c :: cs, n =>
    if isDigit c then
      let n1 := n * 10 + digitVal c
      if n1 > 4294967295 then 4294967295 else parseUintLoop cs n1
    else 0

/-- Model of `id64, _ := strconv.ParseUint(s, 10, 32)`. -/
def parseUint32 (s : String) : Nat :=
  if s = "" then 0 else parseUintLoop s.toList 0

/-- Body of the loop of `payID`: an entry with another id is kept, an entry with the id
is dropped and logged. -/
def payIDStep (now : Int) (id : Nat) (acc : List Entry × World) (e : Entry) :
    List Entry × World :=
  if e.ID ≠ id then (acc.1 ++ [e], acc.2)
  else (acc.1, logAction acc.2 now ("PAY_ID id=" ++ natToString id))

/-- Embedding of `payID`. -/
def payID (w : World) (now : Int) (idStr : String) : World :=
  let db := loadDB w
  let id := wrap32 (parseUint32 idStr)
  let r := db.Entries.foldl (payIDStep now id) ([], dataDir w)
  saveDB r.2 { db with Entries := r.1 }

/-- The variables the loop of `payPartial` updates. -/
structure PayState where
  Balance : Int
  paid : List Nat
  remaining : List Entry
  deriving DecidableEq, Repr

/-- Body of the loop of `payPartial`. -/
def payStep (st : PayState) (e : Entry) : PayState :=
  if st.Balance ≥ e.Price then
    { st with Balance := wrap64 (st.Balance - e.Price), paid := st.paid ++ [e.ID] }
  else
    { st with remaining := st.remaining ++ [e] }

/-- The verb `%v` on a slice of `uint32`, as `Println` prints it. -/
def formatIDs (ids : List Nat) : String :=
  "[" ++ " ".intercalate (ids.map natToString) ++ "]"

/-- Embedding of `payPartial`. -/
def payPartial (w : World) (now : Int) (priceStr : String) : World :=
  let db := loadDB w
  let payment := centsFromString priceStr
  let st := db.Entries.foldl payStep
    { Balance := wrap64 (db.Balance + payment), paid := [], remaining := [] }
  let w := saveDB w { Balance := st.Balance, Entries := st.remaining }
  let w := logAction w now ("PAY_PARTIAL amount=" ++ priceStr)
  let w := println w ("Paid IDs: " ++ formatIDs st.paid)
  println w ("Remaining Balance: " ++ formatCents st.Balance)

/-! ## `crypto/sha256` -/

/-- Primality by trial division. -/
def isPrime (n : Nat) : Bool :=
  decide (2 ≤ n) && (List.range n).all (fun d => d < 2 || n % d != 0)

/-- The first 64 primes: the primes below 312. -/
def firstPrimes : List Nat :=
  (List.range 312).filter isPrime

/-- Bisection for the integer root: with `lo ^ k ≤ n < hi ^ k`, the greatest `r` with
`r ^ k ≤ n`; `fuel` bounds the number of halvings. -/
def rootBisect (k n : Nat) : Nat → Nat → Nat → Nat
  | 0, lo, _ => lo
  | fuel + 1, lo, hi =>
    if hi ≤ lo + 1 then lo
    else if ((lo + hi) / 2) ^ k ≤ n then rootBisect k n fuel ((lo + hi) / 2) hi
    else rootBisect k n fuel lo ((lo + hi) / 2)

/-- The `k`-th root rounded down, for `n` below `2 ^ (48 * k)`. -/
def iroot (k n : Nat) : Nat :=
  rootBisect k n 64 0 (2 ^ 48)

/-- The round constants of SHA-256: the first 32 bits of the fractional parts of the cube
roots of the first 64 primes. -/
def sha256K : List Nat :=
  firstPrimes.map (fun p => iroot 3 (p * 2 ^ 96) % 2 ^ 32)

/-- The initial hash value of SHA-256: the first 32 bits of the fractional parts of the
square roots of the first 8 primes. -/
def sha256Init : List Nat :=
  (firstPrimes.take 8).map (fun p => iroot 2 (p * 2 ^ 64) % 2 ^ 32)

/-- Rotation of a 32-bit word to the right. -/
def rotr32 (x n : Nat) : Nat :=
  (x >>> n ||| x <<< (32 - n)) % 2 ^ 32

/-- The bytes of the UTF-8 encoding of a text, as `[]byte(p)` yields them. -/
def utf8Bytes (s : String) : List Nat :=
  s.toList.flatMap (fun c => (String.utf8EncodeChar c).map UInt8.toNat)

/-- The big-endian bytes of `x`, `n` of them. -/
def bigEndian : Nat → Nat → List Nat
  | 0, _ => []
  | n + 1, x => bigEndian n (x / 256) ++ [x % 256]

/-- The padding of SHA-256: a byte `0x80`, zeros up to 56 modulo 64, and the length of
the message in bits on eight bytes. -/
def sha256Pad (msg : List Nat) : List Nat :=
  msg ++ [0x80] ++ List.replicate ((119 - msg.length % 64) % 64) 0
    ++ bigEndian 8 (8 * msg.length)

/-- The 32-bit words of a byte sequence, big-endian; `n` words are read. -/
def wordsOf : Nat → List Nat → List Nat
  | 0, _ => []
  | n + 1, bs =>
    (bs.getD 0 0 * 2 ^ 24 + bs.getD 1 0 * 2 ^ 16 + bs.getD 2 0 * 2 ^ 8 + bs.getD 3 0)
      :: wordsOf n (bs.drop 4)

/-- The message schedule: `n` more words are added to the words `ws`. -/
def sha256Schedule : Nat → List Nat → List Nat
  | 0, ws => ws
  | n + 1, ws =>
    let t := ws.length
    let w15 := ws.getD (t - 15) 0
    let w2 := ws.getD (t - 2) 0
    let s0 := rotr32 w15 7 ^^^ rotr32 w15 18 ^^^ w15 >>> 3
    let s1 := rotr32 w2 17 ^^^ rotr32 w2 19 ^^^ w2 >>> 10
    sha256Schedule n (ws ++ [(ws.getD (t - 16) 0 + s0 + ws.getD (t - 7) 0 + s1) % 2 ^ 32])

/-- One round of the compression function on the working variables `a` to `h`. -/
def sha256Round (v : List Nat) (kw : Nat × Nat) : List Nat :=
  let a := v.getD 0 0
  let b := v.getD 1 0
  let c := v.getD 2 0
  let d := v.getD 3 0
  let e := v.getD 4 0
  let f := v.getD 5 0
  let g := v.getD 6 0
  let h := v.getD 7 0
  let s1 := rotr32 e 6 ^^^ rotr32 e 11 ^^^ rotr32 e 25
  let ch := (e &&& f) ^^^ ((2 ^ 32 - 1 - e) &&& g)
  let t1 := (h + s1 + ch + kw.1 + kw.2) % 2 ^ 32
  let s0 := rotr32 a 2 ^^^ rotr32 a 13 ^^^ rotr32 a 22
  let maj := (a &&& b) ^^^ (a &&& c) ^^^ (b &&& c)
  let t2 := (s0 + maj) % 2 ^ 32
  [(t1 + t2) % 2 ^ 32, a, b, c, (d + t1) % 2 ^ 32, e, f, g]

/-- The compression of one 64-byte block into the hash value `hv`. -/
def sha256Block (hv : List Nat) (block : List Nat) : List Nat :=
  let ws := sha256Schedule 48 (wordsOf 16 block)
  let v := (sha256K.zip ws).foldl sha256Round hv
  List.zipWith (fun x y => (x + y) % 2 ^ 32) hv v

/-- The blocks of the padded message are compressed in turn; `n` blocks are read. -/
def sha256Blocks : Nat → List Nat → List Nat → List Nat
  | 0, hv, _ => hv
  | n + 1, hv, bs => sha256Blocks n (sha256Block hv (bs.take 64)) (bs.drop 64)

/-- A hexadecimal digit, lower case. -/
def hexDigit (n : Nat) : Char :=
  if n < 10 then Char.ofNat (48 + n) else Char.ofNat (87 + n)

/-- The text `hex.EncodeToString` gives for a byte sequence. -/
def hexEncode (bs : List Nat) : String :=
  String.mk (bs.flatMap (fun b => [hexDigit (b / 16), hexDigit (b % 16)]))

/-- The digest `hex.EncodeToString(hash[:])` for `hash := sha256.Sum256([]byte(p))`. -/
def sha256Hex (p : String) : String :=
  let msg := sha256Pad (utf8Bytes p)
  hexEncode ((sha256Blocks (msg.length / 64) sha256Init msg).flatMap (bigEndian 4))

/-! ## Access control -/

/-- The white-space characters of package `fmt`. -/
def isSpace (c : Char) : Bool :=
  let r := c.toNat
  decide ((0x0009 ≤ r ∧ r ≤ 0x000d) ∨ r = 0x0020 ∨ r = 0x0085 ∨ r = 0x00a0 ∨ r = 0x1680
    ∨ (0x2000 ≤ r ∧ r ≤ 0x200a) ∨ r = 0x2028 ∨ r = 0x2029 ∨ r = 0x202f ∨ r = 0x205f
    ∨ r = 0x3000)

/-- Model of `var p string; fmt.Scanln(&p)` on the text waiting on standard input: blanks
before the word are skipped (a line end is not), and the word runs up to the next white
space.  When nothing can be read `p` stays empty. -/
def scanln (stdin : String) : String :=
  String.mk
    ((stdin.toList.dropWhile (fun c => isSpace c && c != '\n')).takeWhile
      (fun c => !isSpace c))

/-- Embedding of `passwdSet`. -/
def passwdSet (w : World) (stdin : String) : World :=
  let w := print w "New password: "
  let p := scanln stdin
  let cfg : Config := { PasswordHash := sha256Hex p }
  let w := { dataDir w with config := some cfg }
  println w "Password set."

/-- Embedding of `wipe`. -/
def wipe (w : World) (stdin : String) : World :=
  let w := dataDir w
  match w.config with
  | none => println w "No password set."
  | some cfg =>
    let w := print w "Password: "
    let p := scanln stdin
    if sha256Hex p ≠ cfg.PasswordHash then println w "Wrong password."
    else
      let w := { w with dir := false, db := none, log := [], config := none }
      println w "Wiped."

/-! ## Command dispatcher -/

/-- Embedding of `showLog`: the pager shows the log; nothing is stored or printed by the
program itself. -/
def showLog (w : World) : World :=
  dataDir w

/-- The text `help` prints. -/
def usage : String :=
  "\ncafetrack add \"item\" 25.00\ncafetrack listunpaid\ncafetrack balance\n"
    ++ "cafetrack pay <id>\ncafetrack pay -p <price>\ncafetrack log\ncafetrack wipe\n"
    ++ "cafetrack passwd\n"

/-- Embedding of `help`. -/
def help (w : World) : World :=
  println w usage

/-- What the `switch` of `main` decides to call. -/
inductive Command where
  | help
  | add (item priceStr : String)
  | listUnpaid
  | showBalance
  | payPartial (priceStr : String)
  | payID (idStr : String)
  | showLog
  | wipe
  | passwdSet
  | nothing
  deriving DecidableEq, Repr

/-- The control flow of `main` on `os.Args` (the program name first). -/
def dispatch (args : List String) : Command :=
  if args.length < 2 then Command.help
  else
    let cmd := args.getD 1 ""
    if cmd = "add" then
      if args.length < 4 then Command.help
      else Command.add (args.getD 2 "") (args.getD 3 "")
    else if cmd = "listunpaid" then Command.listUnpaid
    else if cmd = "balance" then Command.showBalance
    else if cmd = "pay" then
      if args.length < 3 then Command.nothing
      else if args.getD 2 "" = "-p" ∧ args.length = 4 then Command.payPartial (args.getD 3 "")
      else Command.payID (args.getD 2 "")
    else if cmd = "log" then Command.showLog
    else if cmd = "wipe" then Command.wipe
    else if cmd = "passwd" then Command.passwdSet
    else if cmd = "help" then Command.help
    else Command.nothing

/-- The call a command stands for; `now` is the clock and `stdin` the line typed at a
prompt. -/
def run (now : Int) (stdin : String) (w : World) : Command → World
  | Command.help => help w
  | Command.add item priceStr => add w now item priceStr
  | Command.listUnpaid => listUnpaid w
  | Command.showBalance => showBalance w
  | Command.payPartial priceStr => payPartial w now priceStr
  | Command.payID idStr => payID w now idStr
  | Command.showLog => showLog w
  | Command.wipe => wipe w stdin
  | Command.passwdSet => passwdSet w stdin
  | Command.nothing => w

/-- Embedding of `main`. -/
def main (now : Int) (stdin : String) (w : World) (args : List String) : World :=
  run now stdin w (dispatch args)

/-! ## Specification-side definitions -/

/-- What a pass over the entries yields: the final running balance, the entries left
unpaid and the ids of the entries paid, both in the order met. -/
structure PassResult where
  balance : Int
  remaining : List Entry
  paid : List Nat
  deriving DecidableEq, Repr

/-- The single pass as the specification words it: the entries are visited from left to
right with a running balance; an entry is paid iff the running balance when it is reached
is at least its price, and its price is then subtracted.  `norm` is applied to the result
of the subtraction: the identity for the integers of the specification, `wrap64` for the
64-bit arithmetic of the program. -/
def specPass (norm : Int → Int) (running : Int) : List Entry → PassResult
  | [] => { balance := running, remaining := [], paid := [] }
  | e :: es =>
    if running ≥ e.Price then
      let r := specPass norm (norm (running - e.Price)) es
      { r with paid := e.ID :: r.paid }
    else
      let r := specPass norm running es
      { r with remaining := e :: r.remaining }

/-- The value of `db.Balance` inside `payPartial` once the loop has gone over the entries
`pre`, a prefix of the stored entries. -/
def runningBalance (db : DB) (priceStr : String) (pre : List Entry) : Int :=
  (pre.foldl payStep
    { Balance := wrap64 (db.Balance + centsFromString priceStr), paid := [], remaining := [] }).Balance

/-- The store before anything has been run: no directory, no files, nothing printed. -/
def emptyWorld : World :=
  { dir := false, db := none, log := [], config := none, out := [] }

/-- The ledger of the scenario: `add "coffee" 2.5` then `add "tea" 1.00` on the empty
store. -/
def scenarioWorld : World :=
  add (add emptyWorld 1 "coffee" "2.5") 2 "tea" "1.00"

/-- A ledger reached by `pay -p 90000000000000000` and `add "coffee" 1.00`: the balance
is within `10^18` of the greatest `int64`. -/
def overflowWorld : World :=
  add (payPartial emptyWorld 1 "90000000000000000") 2 "coffee" "1.00"

/-- A ledger file whose only entry carries the greatest `uint32` as id. -/
def maxIDWorld : World :=
  { emptyWorld with
    dir := true
    db := some { Balance := 0, Entries := [⟨4294967295, "coffee", 250, 1⟩] } }

/-- The ledger `add` makes of `maxIDWorld`: ids `4294967295` and `0`, distinct. -/
def wrappedIDWorld : World :=
  add maxIDWorld 2 "tea" "1.00"

/-- A ledger with a negative price, reached by `add "a" 5`, `add "b" -10`, `add "c" 7`. -/
def negativePriceWorld : World :=
  add (add (add emptyWorld 1 "a" "5") 2 "b" "-10") 3 "c" "7"

/-- A ledger with rising prices, reached by `add "a" 5` and `add "c" 7`. -/
def risingPriceWorld : World :=
  add (add emptyWorld 1 "a" "5") 2 "c" "7"

/-- The store after `n` runs of `add "coffee" 2.5` on the empty store. -/
def addMany : Nat → World
  | 0 => emptyWorld
  | n + 1 => add (addMany n) 0 "coffee" "2.5"

/-! ## Arithmetic lemmas -/

/-- On the range of `int64` the reduction changes nothing. -/
theorem wrap64_eq_self {x : Int} (h1 : minInt64 ≤ x) (h2 : x ≤ maxInt64) : wrap64 x = x := by
  unfold wrap64
  unfold minInt64 at h1
  unfold maxInt64 at h2
  omega

/-- The reduction lands in the range of `int64`. -/
theorem wrap64_bounds (x : Int) : minInt64 ≤ wrap64 x ∧ wrap64 x ≤ maxInt64 := by
  unfold wrap64 minInt64 maxInt64
  omega

/-! ## The loop of `payPartial` -/

/-- The loop of `payPartial`, from any state, appends to `paid` and `remaining` what the
pass in 64-bit arithmetic yields from the balance of that state. -/
theorem foldl_payStep_eq_specPass (es : List Entry) (st : PayState) :
    es.foldl payStep st =
      { Balance := (specPass wrap64 st.Balance es).balance
        paid := st.paid ++ (specPass wrap64 st.Balance es).paid
        remaining := st.remaining ++ (specPass wrap64 st.Balance es).remaining } := by
  induction es generalizing st with
  | nil => simp [specPass]
  | cons e es ih =>
    rw [List.foldl_cons, ih]
    by_cases h : st.Balance ≥ e.Price
    · simp [payStep, specPass, h]
    · simp [payStep, specPass, h]

/-- From a balance in the range of `int64` and with no negative price, the pass in 64-bit
arithmetic and the pass over the integers agree. -/
theorem specPass_wrap64_eq_exact (es : List Entry) (b : Int)
    (hlo : minInt64 ≤ b) (hhi : b ≤ maxInt64) (hp : ∀ e ∈ es, 0 ≤ e.Price) :
    specPass wrap64 b es = specPass id b es := by
  induction es generalizing b with
  | nil => rfl
  | cons e es ih =>
    have he : 0 ≤ e.Price := hp e (List.mem_cons_self _ _)
    have hes : ∀ x ∈ es, 0 ≤ x.Price := fun x hx => hp x (List.mem_cons_of_mem _ hx)
    by_cases h : b ≥ e.Price
    · have hw : wrap64 (b - e.Price) = b - e.Price := by
        apply wrap64_eq_self
        · unfold minInt64 at *; omega
        · omega
      have hlo2 : minInt64 ≤ b - e.Price := by unfold minInt64 at *; omega
      have hhi2 : b - e.Price ≤ maxInt64 := by omega
      simp only [specPass, h, if_true, hw, id, ih (b - e.Price) hlo2 hhi2 hes]
    · simp only [specPass, h, if_false, ih b hlo hhi hes]

/-! ## C1: partial payment is one left-to-right pass -/

/-- C1 (as amended): for every ledger and every payment text `t`, `payPartial` stores and
reports exactly the result of one left-to-right pass over the entries in storage order,
in 64-bit wrap-around arithmetic, that starts with the running balance
`wrap64 (b + centsFromString t)`: the stored balance is the final running balance, the
stored entries are the unpaid ones in their order, the printed ids are the paid ones in
the order met.  When `b + centsFromString t` fits in an `int64` and no price is negative
this is the pass over the integers that the specification describes. -/
theorem payPartial_eq_specPass (w : World) (now : Int) (t : String) :
    loadDB (payPartial w now t) =
        { Balance :=
            (specPass wrap64 (wrap64 ((loadDB w).Balance + centsFromString t))
              (loadDB w).Entries).balance
          Entries :=
            (specPass wrap64 (wrap64 ((loadDB w).Balance + centsFromString t))
              (loadDB w).Entries).remaining }
      ∧ (payPartial w now t).out =
        w.out ++
          ["Paid IDs: " ++
              formatIDs
                (specPass wrap64 (wrap64 ((loadDB w).Balance + centsFromString t))
                  (loadDB w).Entries).paid ++ "\n",
            "Remaining Balance: " ++
              formatCents
                (specPass wrap64 (wrap64 ((loadDB w).Balance + centsFromString t))
                  (loadDB w).Entries).balance ++ "\n"]
      ∧ (minInt64 ≤ (loadDB w).Balance + centsFromString t →
          (loadDB w).Balance + centsFromString t ≤ maxInt64 →
          (∀ e ∈ (loadDB w).Entries, 0 ≤ e.Price) →
          specPass wrap64 (wrap64 ((loadDB w).Balance + centsFromString t)) (loadDB w).Entries =
            specPass id ((loadDB w).Balance + centsFromString t) (loadDB w).Entries) := by
  refine ⟨?_, ?_, ?_⟩
  · simp [payPartial, foldl_payStep_eq_specPass, loadDB, saveDB, logAction, println, dataDir]
  · simp [payPartial, foldl_payStep_eq_specPass, saveDB, logAction, println, dataDir]
  · intro hlo hhi hp
    rw [wrap64_eq_self hlo hhi]
    exact specPass_wrap64_eq_exact _ _ hlo hhi hp

/-- C1, the scenario of the specification: on the ledger with balance 0 and the entries
(id 1, price 250), (id 2, price 100), the payment "3.00" pays entry 1, keeps entry 2 and
leaves the balance 50. -/
theorem payPartial_scenario :
    loadDB scenarioWorld =
        { Balance := 0
          Entries := [⟨1, "coffee", 250, 1⟩, ⟨2, "tea", 100, 2⟩] }
      ∧ loadDB (payPartial scenarioWorld 3 "3.00") =
        { Balance := 50, Entries := [⟨2, "tea", 100, 2⟩] }
      ∧ (payPartial scenarioWorld 3 "3.00").out =
        scenarioWorld.out ++ ["Paid IDs: [1]\n", "Remaining Balance: 0.50\n"] := by
  refine ⟨by decide, ?_, ?_⟩
  · exact (payPartial_eq_specPass scenarioWorld 3 "3.00").1.trans (by decide)
  · exact (payPartial_eq_specPass scenarioWorld 3 "3.00").2.1.trans (by decide)

/-- C1 as stated fails: on the ledger with balance 9000000000000000000 and one entry of
price 100, the payment "90000000000000000" (9000000000000000000 hundredths) leaves the
entry unpaid and the balance -446744073709551616, while the pass over the integers that
starts with `b + centsFromString t` pays the entry and ends with 17999999999999999900. -/
theorem payPartial_overflow_counterexample :
    loadDB overflowWorld =
        { Balance := 9000000000000000000, Entries := [⟨1, "coffee", 100, 2⟩] }
      ∧ centsFromString "90000000000000000" = 9000000000000000000
      ∧ loadDB (payPartial overflowWorld 3 "90000000000000000") =
        { Balance := -446744073709551616, Entries := [⟨1, "coffee", 100, 2⟩] }
      ∧ specPass id ((loadDB overflowWorld).Balance + centsFromString "90000000000000000")
          (loadDB overflowWorld).Entries =
        { balance := 17999999999999999900, remaining := [], paid := [1] }
      ∧ loadDB (payPartial overflowWorld 3 "90000000000000000") ≠
        { Balance :=
            (specPass id ((loadDB overflowWorld).Balance + centsFromString "90000000000000000")
              (loadDB overflowWorld).Entries).balance
          Entries :=
            (specPass id ((loadDB overflowWorld).Balance + centsFromString "90000000000000000")
              (loadDB overflowWorld).Entries).remaining } := by
  decide

/-! ## The loop of `nextID` -/

/-- The loop of `nextID` ends with a value that bounds the start and every id. -/
theorem foldl_max_ge (es : List Entry) (a : Nat) :
    a ≤ es.foldl (fun max e => if e.ID > max then e.ID else max) a
      ∧ ∀ e ∈ es, e.ID ≤ es.foldl (fun max e => if e.ID > max then e.ID else max) a := by
  induction es generalizing a with
  | nil => simp
  | cons x xs ih =>
    simp only [List.foldl_cons, List.mem_cons, forall_eq_or_imp]
    by_cases h : x.ID > a
    · simp only [h, if_true]
      have := ih x.ID
      exact ⟨by omega, this.1, this.2⟩
    · simp only [h, if_false]
      have := ih a
      exact ⟨this.1, by omega, this.2⟩

/-- The loop of `nextID` ends with the start value or with one of the ids. -/
theorem foldl_max_mem (es : List Entry) (a : Nat) :
    es.foldl (fun max e => if e.ID > max then e.ID else max) a = a
      ∨ ∃ e ∈ es, e.ID = es.foldl (fun max e => if e.ID > max then e.ID else max) a := by
  induction es generalizing a with
  | nil => simp
  | cons x xs ih =>
    simp only [List.foldl_cons, List.mem_cons]
    by_cases h : x.ID > a
    · simp only [h, if_true]
      rcases ih x.ID with h1 | ⟨e, he, h2⟩
      · exact Or.inr ⟨x, Or.inl rfl, h1.symm⟩
      · exact Or.inr ⟨e, Or.inr he, h2⟩
    · simp only [h, if_false]
      rcases ih a with h1 | ⟨e, he, h2⟩
      · exact Or.inl h1
      · exact Or.inr ⟨e, Or.inr he, h2⟩

/-- With `m` the greatest id stored, `nextID` is `m + 1` reduced modulo `2^32`. -/
theorem nextID_of_greatest (es : List Entry) (m : Nat) (hub : ∀ e ∈ es, e.ID ≤ m)
    (hmem : ∃ e ∈ es, e.ID = m) : nextID es = (m + 1) % 2 ^ 32 := by
  obtain ⟨e, he, hem⟩ := hmem
  have h1 := (foldl_max_ge es 0).2 e he
  have h2 : es.foldl (fun max e => if e.ID > max then e.ID else max) 0 ≤ m := by
    rcases foldl_max_mem es 0 with h | ⟨x, hx, h⟩
    · omega
    · rw [← h]; exact hub x hx
  have h3 : es.foldl (fun max e => if e.ID > max then e.ID else max) 0 = m := by omega
  simp only [nextID, wrap32, h3]

/-- The ledger `add` stores: the old entries followed by the new one. -/
theorem loadDB_add (w : World) (now : Int) (item priceStr : String) :
    loadDB (add w now item priceStr) =
      { Balance := (loadDB w).Balance
        Entries := (loadDB w).Entries ++
          [{ ID := nextID (loadDB w).Entries, Item := item,
             Price := centsFromString priceStr, Created := now }] } := by
  simp [add, loadDB, saveDB, logAction, println, dataDir]

/-- After `n` runs of `add` on the empty store, `n` below `2^32`, the stored ids are
`1, 2, ..., n`. -/
theorem ids_addMany (n : Nat) (h : n < 2 ^ 32) :
    (loadDB (addMany n)).Entries.map Entry.ID = List.range' 1 n := by
  induction n with
  | zero => rfl
  | succ k ih =>
    have ihk := ih (by omega)
    have hnext : nextID (loadDB (addMany k)).Entries = k + 1 := by
      rcases Nat.eq_zero_or_pos k with h0 | hpos
      · subst h0; rfl
      · have hub : ∀ e ∈ (loadDB (addMany k)).Entries, e.ID ≤ k := by
          intro e he
          have : e.ID ∈ List.range' 1 k := by
            rw [← ihk]; exact List.mem_map_of_mem _ he
          rw [List.mem_range'_1] at this
          omega
        have hmem : ∃ e ∈ (loadDB (addMany k)).Entries, e.ID = k := by
          have : k ∈ (loadDB (addMany k)).Entries.map Entry.ID := by
            rw [ihk, List.mem_range'_1]; omega
          obtain ⟨e, he, hek⟩ := List.mem_map.mp this
          exact ⟨e, he, hek⟩
        rw [nextID_of_greatest _ k hub hmem]
        omega
    show (loadDB (add (addMany k) 0 "coffee" "2.5")).Entries.map Entry.ID = _
    rw [loadDB_add]
    simp only [List.map_append, List.map_cons, List.map_nil, ihk, hnext]
    rw [List.range'_1_concat, Nat.add_comm 1 k]

/-- After 4294967295 runs of `add` on the empty store the greatest id is 4294967295 and
`nextID` is 0. -/
theorem nextID_addMany_wraps : nextID (loadDB (addMany 4294967295)).Entries = 0 := by
  have hids := ids_addMany 4294967295 (by norm_num)
  have hub : ∀ e ∈ (loadDB (addMany 4294967295)).Entries, e.ID ≤ 4294967295 := by
    intro e he
    have : e.ID ∈ List.range' 1 4294967295 := by
      rw [← hids]; exact List.mem_map_of_mem _ he
    rw [List.mem_range'_1] at this
    omega
  have hmem : ∃ e ∈ (loadDB (addMany 4294967295)).Entries, e.ID = 4294967295 := by
    have : 4294967295 ∈ (loadDB (addMany 4294967295)).Entries.map Entry.ID := by
      rw [hids, List.mem_range'_1]; omega
    obtain ⟨e, he, hek⟩ := List.mem_map.mp this
    exact ⟨e, he, hek⟩
  rw [nextID_of_greatest _ 4294967295 hub hmem]
  norm_num

/-- One more `add` stores the id 0 after the ids `1, ..., 4294967295`, and `nextID` is 0
again. -/
theorem ids_addMany_wrapped :
    (loadDB (addMany 4294967296)).Entries.map Entry.ID = List.range' 1 4294967295 ++ [0]
      ∧ nextID (loadDB (addMany 4294967296)).Entries = 0 := by
  have hids : (loadDB (addMany 4294967296)).Entries.map Entry.ID
      = List.range' 1 4294967295 ++ [0] := by
    show (loadDB (add (addMany 4294967295) 0 "coffee" "2.5")).Entries.map Entry.ID = _
    rw [loadDB_add]
    simp only [List.map_append, List.map_cons, List.map_nil, nextID_addMany_wraps,
      ids_addMany 4294967295 (by norm_num)]
  refine ⟨hids, ?_⟩
  have hub : ∀ e ∈ (loadDB (addMany 4294967296)).Entries, e.ID ≤ 4294967295 := by
    intro e he
    have : e.ID ∈ List.range' 1 4294967295 ++ [0] := by
      rw [← hids]; exact List.mem_map_of_mem _ he
    rcases List.mem_append.mp this with h | h
    · rw [List.mem_range'_1] at h; omega
    · rw [List.mem_singleton] at h; omega
  have hmem : ∃ e ∈ (loadDB (addMany 4294967296)).Entries, e.ID = 4294967295 := by
    have : 4294967295 ∈ (loadDB (addMany 4294967296)).Entries.map Entry.ID := by
      rw [hids]
      apply List.mem_append_left
      rw [List.mem_range'_1]; omega
    obtain ⟨e, he, hek⟩ := List.mem_map.mp this
    exact ⟨e, he, hek⟩
  rw [nextID_of_greatest _ 4294967295 hub hmem]
  norm_num

/-! ## C2: the id `add` assigns -/

/-- C2 (as amended): `add` appends one entry whose id is `nextID` of the entries present
and reports it; that id is 1 when no entry is present, and otherwise, with `m` the
greatest id present, it is `m + 1` reduced modulo `2^32`: exactly `m + 1` whenever
`m < 4294967295`. -/
theorem add_assigns_nextID (w : World) (now : Int) (item priceStr : String) :
    (loadDB (add w now item priceStr)).Entries =
        (loadDB w).Entries ++
          [{ ID := nextID (loadDB w).Entries, Item := item,
             Price := centsFromString priceStr, Created := now }]
      ∧ (add w now item priceStr).out =
        w.out ++ ["ID: " ++ natToString (nextID (loadDB w).Entries) ++ "\n"]
      ∧ ((loadDB w).Entries = [] → nextID (loadDB w).Entries = 1)
      ∧ ∀ m : Nat, (∀ e ∈ (loadDB w).Entries, e.ID ≤ m) → (∃ e ∈ (loadDB w).Entries, e.ID = m) →
          nextID (loadDB w).Entries = (m + 1) % 2 ^ 32
            ∧ (m < 4294967295 → nextID (loadDB w).Entries = m + 1) := by
  refine ⟨?_, ?_, ?_, ?_⟩
  · rw [loadDB_add]
  · simp [add, saveDB, logAction, println, dataDir]
  · intro h
    rw [h]
    decide
  · intro m hub hmem
    have h := nextID_of_greatest _ m hub hmem
    refine ⟨h, fun hm => ?_⟩
    rw [h]
    omega

/-- C2 on the scenario: the first id is 1, the id after ids 1 and 2 is 3, and once every
entry has been paid the next id is 1 again. -/
theorem add_assigns_nextID_scenario :
    nextID (loadDB emptyWorld).Entries = 1
      ∧ nextID (loadDB scenarioWorld).Entries = 3
      ∧ nextID (loadDB (payPartial scenarioWorld 3 "9")).Entries = 1 := by
  refine ⟨(add_assigns_nextID emptyWorld 1 "coffee" "2.5").2.2.1 (by decide), ?_, ?_⟩
  · exact ((add_assigns_nextID scenarioWorld 3 "milk" "1").2.2.2 2 (by decide) (by decide)).2
      (by decide)
  · exact (add_assigns_nextID (payPartial scenarioWorld 3 "9") 4 "milk" "1").2.2.1 (by decide)

/-- C2 as stated fails: on the ledger whose only entry has id 4294967295, `add` assigns
the id 0, which is not one plus the greatest id present; and 4294967295 runs of `add` on
the empty store reach a ledger with greatest id 4294967295, on which `nextID` is 0. -/
theorem add_wraps_counterexample :
    (loadDB maxIDWorld).Entries = [⟨4294967295, "coffee", 250, 1⟩]
      ∧ (loadDB (add maxIDWorld 2 "tea" "1.00")).Entries =
        [⟨4294967295, "coffee", 250, 1⟩, ⟨0, "tea", 100, 2⟩]
      ∧ nextID (loadDB maxIDWorld).Entries = 0
      ∧ nextID (loadDB maxIDWorld).Entries ≠ 4294967295 + 1
      ∧ (loadDB (addMany 4294967295)).Entries.map Entry.ID = List.range' 1 4294967295
      ∧ nextID (loadDB (addMany 4294967295)).Entries = 0 :=
  ⟨by decide, by decide, by decide, by decide, ids_addMany 4294967295 (by norm_num),
    nextID_addMany_wraps⟩

/-! ## The loop of `payID` -/

/-- The loop of `payID`, started with the kept entries `acc` in an existing directory:
it keeps the entries with another id, in order, and logs one line for each entry with the
id. -/
theorem foldl_payIDStep (now : Int) (id : Nat) (es acc : List Entry) (w : World)
    (hd : w.dir = true) :
    es.foldl (payIDStep now id) (acc, w) =
      (acc ++ es.filter (fun e => decide (e.ID ≠ id)),
        { w with
          log := w.log ++
            List.replicate (es.countP (fun e => decide (e.ID = id)))
              { stamp := now, text := "PAY_ID id=" ++ natToString id } }) := by
  induction es generalizing acc w with
  | nil => simp
  | cons x xs ih =>
    rw [List.foldl_cons]
    by_cases h : x.ID = id
    · have hstep : payIDStep now id (acc, w) x =
          (acc, logAction w now ("PAY_ID id=" ++ natToString id)) := by
        simp [payIDStep, h]
      rw [hstep, ih acc _ (by simp [logAction, dataDir])]
      cases w
      simp_all [logAction, dataDir, List.countP_cons, List.replicate_succ, List.filter_cons]
    · have hstep : payIDStep now id (acc, w) x = (acc ++ [x], w) := by
        simp [payIDStep, h]
      rw [hstep, ih (acc ++ [x]) w hd]
      simp [h, List.countP_cons, List.filter_cons]

/-- The ledger and the log `payID` leaves behind. -/
theorem payID_eq (w : World) (now : Int) (idStr : String) :
    loadDB (payID w now idStr) =
        { Balance := (loadDB w).Balance
          Entries := (loadDB w).Entries.filter
            (fun e => decide (e.ID ≠ wrap32 (parseUint32 idStr))) }
      ∧ (payID w now idStr).log =
        w.log ++
          List.replicate
            ((loadDB w).Entries.countP (fun e => decide (e.ID = wrap32 (parseUint32 idStr))))
            { stamp := now, text := "PAY_ID id=" ++ natToString (wrap32 (parseUint32 idStr)) }
      ∧ (payID w now idStr).out = w.out := by
  have h := foldl_payIDStep now (wrap32 (parseUint32 idStr)) (loadDB w).Entries [] (dataDir w) rfl
  simp only [payID, h]
  simp [loadDB, saveDB, dataDir]

/-! ## `strconv.ParseUint` on decimal numerals -/

/-- The character printed for a digit below ten is read back as that digit. -/
theorem digitChar_roundtrip (k : Nat) (h : k < 10) :
    isDigit (Nat.digitChar k) = true ∧ digitVal (Nat.digitChar k) = k := by
  interval_cases k <;> decide

/-- The digits `Nat.toDigitsCore` produces are put in front of the accumulator. -/
theorem toDigitsCore_append (fuel n : Nat) (ds : List Char) :
    Nat.toDigitsCore 10 fuel n ds = Nat.toDigitsCore 10 fuel n [] ++ ds := by
  induction fuel generalizing n ds with
  | zero => simp [Nat.toDigitsCore]
  | succ f ih =>
    simp only [Nat.toDigitsCore]
    by_cases h : n / 10 = 0
    · simp [h]
    · simp only [h, if_false]
      rw [ih (n / 10) (Nat.digitChar (n % 10) :: ds), ih (n / 10) [Nat.digitChar (n % 10)]]
      simp

/-- The decimal digits of `n` are digits, and read from the left they give `n` back. -/
theorem toDigitsCore_value (fuel n : Nat) (h : n < fuel) :
    (∀ c ∈ Nat.toDigitsCore 10 fuel n [], isDigit c = true)
      ∧ (Nat.toDigitsCore 10 fuel n []).foldl (fun a c => a * 10 + digitVal c) 0 = n
      ∧ Nat.toDigitsCore 10 fuel n [] ≠ [] := by
  induction fuel generalizing n with
  | zero => omega
  | succ f ih =>
    have hd := digitChar_roundtrip (n % 10) (Nat.mod_lt _ (by decide))
    simp only [Nat.toDigitsCore]
    by_cases h0 : n / 10 = 0
    · simp only [h0, if_true]
      refine ⟨?_, ?_, by simp⟩
      · intro c hc
        rw [List.mem_singleton] at hc
        rw [hc]; exact hd.1
      · simp only [List.foldl_cons, List.foldl_nil, hd.2]
        omega
    · simp only [h0, if_false]
      rw [toDigitsCore_append]
      have hlt : n / 10 < f := by omega
      obtain ⟨h1, h2, -⟩ := ih (n / 10) hlt
      refine ⟨?_, ?_, by simp⟩
      · intro c hc
        rcases List.mem_append.mp hc with hc | hc
        · exact h1 c hc
        · rw [List.mem_singleton] at hc
          rw [hc]; exact hd.1
      · rw [List.foldl_append, h2]
        simp only [List.foldl_cons, List.foldl_nil, hd.2]
        omega

/-- Reading digits from the left never lowers the value. -/
theorem le_foldl_digits (cs : List Char) (a : Nat) :
    a ≤ cs.foldl (fun a c => a * 10 + digitVal c) a := by
  induction cs generalizing a with
  | nil => exact le_refl _
  | cons c cs ih =>
    have := ih (a * 10 + digitVal c)
    simp only [List.foldl_cons]
    omega

/-- On digits whose value fits in 32 bits the loop of `ParseUint` yields that value. -/
theorem parseUintLoop_eq_foldl (cs : List Char) (a : Nat)
    (hd : ∀ c ∈ cs, isDigit c = true)
    (hv : cs.foldl (fun a c => a * 10 + digitVal c) a ≤ 4294967295) :
    parseUintLoop cs a = cs.foldl (fun a c => a * 10 + digitVal c) a := by
  induction cs generalizing a with
  | nil => rfl
  | cons c cs ih =>
    have hc : isDigit c = true := hd c (List.mem_cons_self _ _)
    have hcs : ∀ x ∈ cs, isDigit x = true := fun x hx => hd x (List.mem_cons_of_mem _ hx)
    simp only [List.foldl_cons] at hv ⊢
    have hle := le_foldl_digits cs (a * 10 + digitVal c)
    have hn : ¬ a * 10 + digitVal c > 4294967295 := by omega
    simp only [parseUintLoop, hc, if_true, hn, if_false]
    exact ih _ hcs hv

/-- Every `uint32` is the id that `payID` reads from its decimal numeral. -/
theorem parseUint32_natToString (n : Nat) (h : n < 2 ^ 32) :
    wrap32 (parseUint32 (natToString n)) = n := by
  obtain ⟨h1, h2, h3⟩ := toDigitsCore_value (n + 1) n (Nat.lt_succ_self n)
  have hs : natToString n = String.mk (Nat.toDigitsCore 10 (n + 1) n []) := rfl
  have hne : natToString n ≠ "" := by
    rw [hs]
    intro hcontra
    exact h3 (congrArg String.data hcontra)
  have hp : parseUint32 (natToString n) = n := by
    unfold parseUint32
    rw [if_neg hne, hs]
    show parseUintLoop (Nat.toDigitsCore 10 (n + 1) n []) 0 = n
    rw [parseUintLoop_eq_foldl _ 0 h1 (by rw [h2]; omega), h2]
  rw [hp, wrap32]
  exact Nat.mod_eq_of_lt h

/-! ## C3: paying by id removes the entries of that id and nothing else -/

/-- C3: for every ledger and every id argument that matches at least one stored entry,
after `payID` the stored entries are exactly the old entries with those of that id
filtered out: no stored entry has the id, every entry with another id is still stored,
the order is the original one, and the balance is unchanged.  The id is what `payID`
reads from its argument; every `uint32` is read from its decimal numeral
(`parseUint32_natToString`). -/
theorem payID_removes_exactly (w : World) (now : Int) (idStr : String)
    (h : ∃ e ∈ (loadDB w).Entries, e.ID = wrap32 (parseUint32 idStr)) :
    (loadDB (payID w now idStr)).Entries =
        (loadDB w).Entries.filter (fun e => decide (e.ID ≠ wrap32 (parseUint32 idStr)))
      ∧ (∀ e ∈ (loadDB (payID w now idStr)).Entries, e.ID ≠ wrap32 (parseUint32 idStr))
      ∧ (∀ e ∈ (loadDB w).Entries, e.ID ≠ wrap32 (parseUint32 idStr) →
          e ∈ (loadDB (payID w now idStr)).Entries)
      ∧ (loadDB (payID w now idStr)).Entries.Sublist (loadDB w).Entries
      ∧ (loadDB (payID w now idStr)).Entries.length < (loadDB w).Entries.length
      ∧ (loadDB (payID w now idStr)).Balance = (loadDB w).Balance := by
  have hdb := (payID_eq w now idStr).1
  rw [hdb]
  refine ⟨rfl, ?_, ?_, ?_, ?_, rfl⟩
  · intro e he
    simpa using (List.mem_filter.mp he).2
  · intro e he hne
    exact List.mem_filter.mpr ⟨he, by simpa using hne⟩
  · exact List.filter_sublist _
  · obtain ⟨e, he, hid⟩ := h
    apply List.length_filter_lt_length_iff_exists.mpr
    exact ⟨e, he, by simp [hid]⟩

/-- C3 on the scenario: `pay 1` on the ledger with ids 1 and 2 leaves the entry with
id 2. -/
theorem payID_removes_exactly_scenario :
    (∃ e ∈ (loadDB scenarioWorld).Entries, e.ID = wrap32 (parseUint32 "1"))
      ∧ (loadDB (payID scenarioWorld 3 "1")).Entries = [⟨2, "tea", 100, 2⟩]
      ∧ (loadDB (payID scenarioWorld 3 "1")).Balance = 0 := by
  have hex : ∃ e ∈ (loadDB scenarioWorld).Entries, e.ID = wrap32 (parseUint32 "1") :=
    ⟨⟨1, "coffee", 250, 1⟩, by decide, by decide⟩
  have h := payID_removes_exactly scenarioWorld 3 "1" hex
  exact ⟨hex, h.1.trans (by decide), h.2.2.2.2.2.trans (by decide)⟩

/-! ## C7: paying an id that is not stored changes nothing -/

/-- C7: `payID` appends to the log exactly one record for each stored entry with the id,
and these are the entries it removes; when no stored entry has the id, the entries and
the balance are unchanged and nothing is logged. -/
theorem payID_audit (w : World) (now : Int) (idStr : String) :
    (payID w now idStr).log =
        w.log ++
          List.replicate
            ((loadDB w).Entries.countP (fun e => decide (e.ID = wrap32 (parseUint32 idStr))))
            { stamp := now, text := "PAY_ID id=" ++ natToString (wrap32 (parseUint32 idStr)) }
      ∧ (loadDB (payID w now idStr)).Entries.length
          + (loadDB w).Entries.countP (fun e => decide (e.ID = wrap32 (parseUint32 idStr)))
        = (loadDB w).Entries.length
      ∧ ((∀ e ∈ (loadDB w).Entries, e.ID ≠ wrap32 (parseUint32 idStr)) →
          (loadDB (payID w now idStr)).Entries = (loadDB w).Entries
            ∧ (loadDB (payID w now idStr)).Balance = (loadDB w).Balance
            ∧ (payID w now idStr).log = w.log) := by
  obtain ⟨hdb, hlog, -⟩ := payID_eq w now idStr
  refine ⟨hlog, ?_, ?_⟩
  · rw [hdb]
    have h := List.length_eq_countP_add_countP
      (fun e : Entry => decide (e.ID = wrap32 (parseUint32 idStr))) (loadDB w).Entries
    rw [h, List.countP_eq_length_filter (fun e : Entry => decide ¬ (decide (e.ID = wrap32 (parseUint32 idStr))) = true)]
    simp [Nat.add_comm]
  · intro hno
    have hc : (loadDB w).Entries.countP
        (fun e => decide (e.ID = wrap32 (parseUint32 idStr))) = 0 := by
      rw [List.countP_eq_zero]
      intro e he
      simpa using hno e he
    rw [hlog, hdb, hc]
    refine ⟨?_, rfl, by simp⟩
    apply List.filter_eq_self.mpr
    intro e he
    simpa using hno e he

/-- C7 on the scenario: `pay 999` on the ledger with ids 1 and 2 keeps both entries, the
balance and the log; `pay 1` logs one record. -/
theorem payID_audit_scenario :
    (loadDB (payID scenarioWorld 3 "999")).Entries = (loadDB scenarioWorld).Entries
      ∧ (loadDB (payID scenarioWorld 3 "999")).Balance = (loadDB scenarioWorld).Balance
      ∧ (payID scenarioWorld 3 "999").log = scenarioWorld.log
      ∧ (payID scenarioWorld 3 "1").log =
        scenarioWorld.log ++ [{ stamp := 3, text := "PAY_ID id=1" }] :=
  have h := (payID_audit scenarioWorld 3 "999").2.2 (by decide)
  ⟨h.1, h.2.1, h.2.2, (payID_audit scenarioWorld 3 "1").1.trans (by decide)⟩

/-! ## C5: the ids stay pairwise distinct -/

/-- The id `nextID` yields is greater than every stored id, as long as none of them is
the greatest `uint32`. -/
theorem lt_nextID (es : List Entry) (hlt : ∀ e ∈ es, e.ID < 4294967295) :
    ∀ e ∈ es, e.ID < nextID es := by
  intro e he
  have h1 := (foldl_max_ge es 0).2 e he
  have h2 : es.foldl (fun max e => if e.ID > max then e.ID else max) 0 < 4294967295 := by
    rcases foldl_max_mem es 0 with h | ⟨x, hx, h⟩
    · omega
    · rw [← h]; exact hlt x hx
  simp only [nextID, wrap32]
  omega

/-- C5 (as amended): on a ledger whose stored ids are pairwise distinct, the ids are
pairwise distinct again after `payID` and after `payPartial`; they are so after `add`,
and the id `add` assigns differs from every stored id, provided no stored id is
4294967295. -/
theorem ids_nodup_preserved (w : World) (now : Int)
    (h : ((loadDB w).Entries.map Entry.ID).Nodup) :
    (∀ idStr : String, ((loadDB (payID w now idStr)).Entries.map Entry.ID).Nodup)
      ∧ (∀ t : String, ((loadDB (payPartial w now t)).Entries.map Entry.ID).Nodup)
      ∧ ((∀ e ∈ (loadDB w).Entries, e.ID < 4294967295) →
          ∀ item priceStr : String,
            ((loadDB (add w now item priceStr)).Entries.map Entry.ID).Nodup
              ∧ ∀ e ∈ (loadDB w).Entries, e.ID ≠ nextID (loadDB w).Entries) := by
  refine ⟨?_, ?_, ?_⟩
  · intro idStr
    rw [(payID_eq w now idStr).1]
    exact h.sublist ((List.filter_sublist _).map _)
  · intro t
    have hsub : ∀ (es : List Entry) (b : Int), (specPass wrap64 b es).remaining.Sublist es := by
      intro es
      induction es with
      | nil => intro b; simp [specPass]
      | cons e es ih =>
        intro b
        by_cases hb : b ≥ e.Price
        · simpa [specPass, hb] using (ih _).trans (List.sublist_cons_self e es)
        · simpa [specPass, hb] using (ih b)
    have hdb : (loadDB (payPartial w now t)).Entries =
        (specPass wrap64 (wrap64 ((loadDB w).Balance + centsFromString t))
          (loadDB w).Entries).remaining := by
      simp [payPartial, foldl_payStep_eq_specPass, loadDB, saveDB, logAction, println, dataDir]
    rw [hdb]
    exact h.sublist ((hsub _ _).map _)
  · intro hlt item priceStr
    have hne : ∀ e ∈ (loadDB w).Entries, e.ID ≠ nextID (loadDB w).Entries :=
      fun e he => Nat.ne_of_lt (lt_nextID _ hlt e he)
    refine ⟨?_, hne⟩
    rw [loadDB_add]
    simp only [List.map_append, List.map_cons, List.map_nil]
    apply List.Nodup.append h (List.nodup_singleton _)
    intro a ha hb
    obtain ⟨e, he, rfl⟩ := List.mem_map.mp ha
    exact hne e he (List.mem_singleton.mp hb)

/-- C5 on the scenario: ids 1 and 2 are distinct, and so are the ids after each
operation. -/
theorem ids_nodup_preserved_scenario :
    ((loadDB scenarioWorld).Entries.map Entry.ID).Nodup
      ∧ ((loadDB (payID scenarioWorld 3 "1")).Entries.map Entry.ID).Nodup
      ∧ ((loadDB (payPartial scenarioWorld 3 "3.00")).Entries.map Entry.ID).Nodup
      ∧ ((loadDB (add scenarioWorld 3 "milk" "1")).Entries.map Entry.ID).Nodup :=
  have h0 : ((loadDB scenarioWorld).Entries.map Entry.ID).Nodup := by decide
  have h := ids_nodup_preserved scenarioWorld 3 h0
  ⟨h0, h.1 "1", h.2.1 "3.00", (h.2.2 (by decide) "milk" "1").1⟩

/-- C5 as stated fails: the ledger with ids 4294967295 and 0 (what `add` makes of a
ledger whose only id is 4294967295) has distinct ids, and `add` gives it a second entry
with id 0.  The same happens on the ledger that 4294967296 runs of `add` on the empty
store reach: its ids `1, ..., 4294967295, 0` are distinct, and `add` assigns 0 again. -/
theorem add_duplicates_id_counterexample :
    (loadDB wrappedIDWorld).Entries.map Entry.ID = [4294967295, 0]
      ∧ ((loadDB wrappedIDWorld).Entries.map Entry.ID).Nodup
      ∧ (loadDB (add wrappedIDWorld 3 "milk" "1")).Entries.map Entry.ID = [4294967295, 0, 0]
      ∧ ¬ ((loadDB (add wrappedIDWorld 3 "milk" "1")).Entries.map Entry.ID).Nodup
      ∧ (∃ e ∈ (loadDB wrappedIDWorld).Entries, e.ID = nextID (loadDB wrappedIDWorld).Entries)
      ∧ ((loadDB (addMany 4294967296)).Entries.map Entry.ID).Nodup
      ∧ ¬ ((loadDB (add (addMany 4294967296) 3 "milk" "1")).Entries.map Entry.ID).Nodup := by
  refine ⟨by decide, by decide, by decide, by decide, by decide, ?_, ?_⟩
  · rw [ids_addMany_wrapped.1]
    apply List.Nodup.append (List.nodup_range' 1 4294967295) (List.nodup_singleton 0)
    intro a ha h0
    rw [List.mem_singleton] at h0
    rw [List.mem_range'_1] at ha
    omega
  · rw [loadDB_add]
    simp only [List.map_append, List.map_cons, List.map_nil, ids_addMany_wrapped.1,
      ids_addMany_wrapped.2]
    intro hnd
    rw [List.append_assoc] at hnd
    have := (List.nodup_append.mp hnd).2.1
    simp at this

/-! ## C9: the balance after a partial payment -/

/-- The pass over the integers never makes a non-negative running balance negative. -/
theorem specPass_id_balance_nonneg (es : List Entry) (b : Int) (hb : 0 ≤ b) :
    0 ≤ (specPass id b es).balance := by
  induction es generalizing b with
  | nil => simpa [specPass] using hb
  | cons e es ih =>
    by_cases h : b ≥ e.Price
    · have : 0 ≤ b - e.Price := by omega
      simpa [specPass, h] using ih (b - e.Price) this
    · simpa [specPass, h] using ih b hb

/-- C9 (as amended): for every ledger with balance `b ≥ 0` and no negative price, and
every payment text whose amount in hundredths `p` is non-negative with `b + p` within
`int64`, the balance after `payPartial` is non-negative. -/
theorem payPartial_balance_nonneg (w : World) (now : Int) (t : String)
    (hb : 0 ≤ (loadDB w).Balance) (hp : 0 ≤ centsFromString t)
    (hfit : (loadDB w).Balance + centsFromString t ≤ maxInt64)
    (hprices : ∀ e ∈ (loadDB w).Entries, 0 ≤ e.Price) :
    0 ≤ (loadDB (payPartial w now t)).Balance := by
  have hdb : (loadDB (payPartial w now t)).Balance =
      (specPass wrap64 (wrap64 ((loadDB w).Balance + centsFromString t))
        (loadDB w).Entries).balance := by
    simp [payPartial, foldl_payStep_eq_specPass, loadDB, saveDB, logAction, println, dataDir]
  have hlo : minInt64 ≤ (loadDB w).Balance + centsFromString t := by
    unfold minInt64; omega
  rw [hdb, wrap64_eq_self hlo hfit, specPass_wrap64_eq_exact _ _ hlo hfit hprices]
  exact specPass_id_balance_nonneg _ _ (by omega)

/-- C9 on the scenario: balance 0, payment "3.00". -/
theorem payPartial_balance_nonneg_scenario :
    0 ≤ (loadDB (payPartial scenarioWorld 3 "3.00")).Balance :=
  payPartial_balance_nonneg scenarioWorld 3 "3.00" (by decide) (by decide) (by decide)
    (by decide)

/-- C9 as stated fails: on the empty ledger (balance 0) the payment text "-5" is encoded
as -500 and `payPartial` leaves the balance -500. -/
theorem payPartial_negative_counterexample :
    (loadDB emptyWorld).Balance = 0
      ∧ centsFromString "-5" = -500
      ∧ dispatch ["cafetrack", "pay", "-p", "-5"] = Command.payPartial "-5"
      ∧ (loadDB (payPartial emptyWorld 1 "-5")).Balance = -500
      ∧ ¬ 0 ≤ (loadDB (payPartial emptyWorld 1 "-5")).Balance := by
  decide

/-! ## C10: no later entry of higher price is paid past a retained one -/

/-- With no negative price, the loop of `payPartial` never raises a balance that lies in
the range of `int64`, and keeps it in that range. -/
theorem foldl_payStep_balance_le (es : List Entry) (st : PayState)
    (hlo : minInt64 ≤ st.Balance) (hhi : st.Balance ≤ maxInt64)
    (hp : ∀ e ∈ es, 0 ≤ e.Price) :
    (es.foldl payStep st).Balance ≤ st.Balance ∧ minInt64 ≤ (es.foldl payStep st).Balance := by
  induction es generalizing st with
  | nil => exact ⟨le_refl _, hlo⟩
  | cons e es ih =>
    have he : 0 ≤ e.Price := hp e (List.mem_cons_self _ _)
    have hes : ∀ x ∈ es, 0 ≤ x.Price := fun x hx => hp x (List.mem_cons_of_mem _ hx)
    rw [List.foldl_cons]
    by_cases h : st.Balance ≥ e.Price
    · have hw : wrap64 (st.Balance - e.Price) = st.Balance - e.Price := by
        apply wrap64_eq_self
        · unfold minInt64 at *; omega
        · omega
      have hstep : (payStep st e).Balance = st.Balance - e.Price := by
        simp [payStep, h, hw]
      have := ih (payStep st e) (by rw [hstep]; unfold minInt64 at *; omega)
        (by rw [hstep]; omega)
        hes
      rw [hstep] at this
      exact ⟨by omega, this.2⟩
    · have hstep : (payStep st e).Balance = st.Balance := by
        simp [payStep, h]
      have := ih (payStep st e) (by rw [hstep]; exact hlo) (by rw [hstep]; exact hhi) hes
      rw [hstep] at this
      exact this

/-- With no negative price: once an entry is retained, the running balance stays below
its price for the rest of the pass. -/
theorem runningBalance_lt_of_retained (db : DB) (t : String) (pre mid : List Entry)
    (ei : Entry) (hp : ∀ e ∈ pre ++ ei :: mid, 0 ≤ e.Price)
    (hret : ¬ runningBalance db t pre ≥ ei.Price) :
    runningBalance db t (pre ++ ei :: mid) < ei.Price := by
  unfold runningBalance at *
  rw [List.foldl_append, List.foldl_cons]
  have hpre := foldl_payStep_balance_le pre
    { Balance := wrap64 (db.Balance + centsFromString t), paid := [], remaining := [] }
    (wrap64_bounds _).1 (wrap64_bounds _).2
    (fun e he => hp e (List.mem_append_left _ he))
  have hstep : (payStep (pre.foldl payStep
      { Balance := wrap64 (db.Balance + centsFromString t), paid := [], remaining := [] }) ei).Balance
      = (pre.foldl payStep
      { Balance := wrap64 (db.Balance + centsFromString t), paid := [], remaining := [] }).Balance := by
    simp [payStep, hret]
  have hb := wrap64_bounds (db.Balance + centsFromString t)
  have hmid := foldl_payStep_balance_le mid
    (payStep (pre.foldl payStep
      { Balance := wrap64 (db.Balance + centsFromString t), paid := [], remaining := [] }) ei)
    (by rw [hstep]; exact hpre.2) (by rw [hstep]; simp only [] at hpre; omega)
    (fun e he => hp e (List.mem_append_right _ (List.mem_cons_of_mem _ he)))
  rw [hstep] at hmid
  omega

/-- What the decision of the loop means for the outcome: an entry reached with a running
balance of at least its price has its id among the printed ids, any other entry is among
the stored entries. -/
theorem payPartial_outcome (w : World) (now : Int) (t : String) (pre post : List Entry)
    (e : Entry) (hsplit : (loadDB w).Entries = pre ++ e :: post) :
    (runningBalance (loadDB w) t pre ≥ e.Price →
        ∃ ids : List Nat, e.ID ∈ ids ∧
          (payPartial w now t).out =
            w.out ++ ["Paid IDs: " ++ formatIDs ids ++ "\n",
              "Remaining Balance: "
                ++ formatCents (loadDB (payPartial w now t)).Balance ++ "\n"])
      ∧ (¬ runningBalance (loadDB w) t pre ≥ e.Price →
        e ∈ (loadDB (payPartial w now t)).Entries) := by
  have hfold : (loadDB w).Entries.foldl payStep
      { Balance := wrap64 ((loadDB w).Balance + centsFromString t), paid := [], remaining := [] }
      = post.foldl payStep (payStep (pre.foldl payStep
      { Balance := wrap64 ((loadDB w).Balance + centsFromString t), paid := [],
        remaining := [] }) e) := by
    rw [hsplit, List.foldl_append, List.foldl_cons]
  constructor
  · intro hpaid
    refine ⟨((loadDB w).Entries.foldl payStep
      { Balance := wrap64 ((loadDB w).Balance + centsFromString t), paid := [],
        remaining := [] }).paid, ?_, ?_⟩
    · rw [hfold, foldl_payStep_eq_specPass post]
      unfold runningBalance at hpaid
      simp [payStep, hpaid]
    · simp [payPartial, loadDB, saveDB, logAction, println, dataDir]
  · intro hret
    have : (loadDB (payPartial w now t)).Entries = ((loadDB w).Entries.foldl payStep
      { Balance := wrap64 ((loadDB w).Balance + centsFromString t), paid := [],
        remaining := [] }).remaining := by
      simp [payPartial, loadDB, saveDB, logAction, println, dataDir]
    rw [this, hfold, foldl_payStep_eq_specPass post]
    unfold runningBalance at hret
    simp [payStep, hret]

/-- C10 (as amended): when no stored price is negative, a single `payPartial` never pays
an entry that lies after a retained entry of lower or equal price: if the entry `ei` is
reached with a running balance below its price, every later entry `ej` with
`ei.Price ≤ ej.Price` is reached with a running balance below its price too, and both
are among the stored entries afterwards.  The order of payment can be inverted when a
price is negative: on the ledger with prices 500, -1000, 700 and balance 0 the payment
"3" retains the first entry and pays the third. -/
theorem payPartial_inversion_needs_negative_price :
    (∀ (w : World) (now : Int) (t : String) (pre mid post : List Entry) (ei ej : Entry),
        (∀ e ∈ (loadDB w).Entries, 0 ≤ e.Price) →
        (loadDB w).Entries = pre ++ ei :: (mid ++ ej :: post) →
        ¬ runningBalance (loadDB w) t pre ≥ ei.Price →
        ei.Price ≤ ej.Price →
        ¬ runningBalance (loadDB w) t (pre ++ ei :: mid) ≥ ej.Price
          ∧ ei ∈ (loadDB (payPartial w now t)).Entries
          ∧ ej ∈ (loadDB (payPartial w now t)).Entries)
      ∧ (loadDB negativePriceWorld =
            { Balance := 0
              Entries := [⟨1, "a", 500, 1⟩, ⟨2, "b", -1000, 2⟩, ⟨3, "c", 700, 3⟩] }
          ∧ ¬ runningBalance (loadDB negativePriceWorld) "3" [] ≥ 500
          ∧ runningBalance (loadDB negativePriceWorld) "3"
              [⟨1, "a", 500, 1⟩, ⟨2, "b", -1000, 2⟩] ≥ 700
          ∧ loadDB (payPartial negativePriceWorld 4 "3") =
            { Balance := 600, Entries := [⟨1, "a", 500, 1⟩] }
          ∧ (payPartial negativePriceWorld 4 "3").out =
            negativePriceWorld.out ++ ["Paid IDs: [2 3]\n", "Remaining Balance: 6.00\n"]) := by
  refine ⟨?_, by decide⟩
  intro w now t pre mid post ei ej hp hsplit hret hle
  have hp2 : ∀ e ∈ pre ++ ei :: mid, 0 ≤ e.Price := by
    intro e he
    apply hp e
    rw [hsplit]
    rcases List.mem_append.mp he with h | h
    · exact List.mem_append_left _ h
    · rcases List.mem_cons.mp h with h | h
      · subst h; simp
      · simp [h]
  have hlt := runningBalance_lt_of_retained (loadDB w) t pre mid ei hp2 hret
  have hj : ¬ runningBalance (loadDB w) t (pre ++ ei :: mid) ≥ ej.Price := by omega
  refine ⟨hj, (payPartial_outcome w now t pre _ ei hsplit).2 hret, ?_⟩
  have hsplit2 : (loadDB w).Entries = (pre ++ ei :: mid) ++ ej :: post := by
    rw [hsplit]; simp
  exact (payPartial_outcome w now t _ post ej hsplit2).2 hj

/-- C10 (as amended) on a ledger with prices 500 and 700 and the payment "3": the first
entry is retained, and so is the second. -/
theorem payPartial_no_inversion_scenario :
    ¬ runningBalance (loadDB risingPriceWorld) "3" [⟨1, "a", 500, 1⟩] ≥ 700
      ∧ (⟨1, "a", 500, 1⟩ : Entry) ∈ (loadDB (payPartial risingPriceWorld 3 "3")).Entries
      ∧ (⟨2, "c", 700, 2⟩ : Entry) ∈ (loadDB (payPartial risingPriceWorld 3 "3")).Entries :=
  payPartial_inversion_needs_negative_price.1 risingPriceWorld 3 "3" [] [] []
    ⟨1, "a", 500, 1⟩ ⟨2, "c", 700, 2⟩ (by decide) (by decide) (by decide) (by decide)

/-- C10 as stated fails: there is no ledger with non-negative prices, payment text and
positions `i < j` (entries `ei` before `ej`) with `ei.Price < ej.Price` such that
`payPartial` pays `ej` and retains `ei`. -/
theorem payPartial_inversion_counterexample :
    ¬ ∃ (w : World) (t : String) (pre mid post : List Entry) (ei ej : Entry),
        (∀ e ∈ (loadDB w).Entries, 0 ≤ e.Price)
          ∧ (loadDB w).Entries = pre ++ ei :: (mid ++ ej :: post)
          ∧ ei.Price < ej.Price
          ∧ runningBalance (loadDB w) t (pre ++ ei :: mid) ≥ ej.Price
          ∧ ¬ runningBalance (loadDB w) t pre ≥ ei.Price := by
  rintro ⟨w, t, pre, mid, post, ei, ej, hp, hsplit, hlt, hpaid, hret⟩
  have hp2 : ∀ e ∈ pre ++ ei :: mid, 0 ≤ e.Price := by
    intro e he
    apply hp e
    rw [hsplit]
    rcases List.mem_append.mp he with h | h
    · exact List.mem_append_left _ h
    · rcases List.mem_cons.mp h with h | h
      · subst h; simp
      · simp [h]
  have := runningBalance_lt_of_retained (loadDB w) t pre mid ei hp2 hret
  omega

/-! ## C4: the wipe is gated by the stored digest -/

set_option maxRecDepth 1000000 in
/-- The digest of the text "abc", the first test vector of the standard. -/
theorem sha256Hex_abc :
    sha256Hex "abc" = "ba7816bf8f01cfea414140de5dae2223b00361a396177a9cb410ff61f20015ad" := by
  decide!

set_option maxRecDepth 1000000 in
/-- The digest of the text "a". -/
theorem sha256Hex_a :
    sha256Hex "a" = "ca978112ca1bbdcafac231b39a23dc4da786eff8147c4e72b9807785afee48bb" := by
  decide!

/-- What `passwdSet` leaves behind: the digest of the word read from the prompt. -/
theorem passwdSet_eq (w : World) (x : String) :
    passwdSet w x =
      { dir := true, db := w.db, log := w.log
        config := some { PasswordHash := sha256Hex (scanln x) }
        out := w.out ++ ["New password: ", "Password set.\n"] } := by
  simp [passwdSet, print, println, dataDir]

/-- C4 (as amended): after `passwdSet` has read the line `x`, the stored digest is that
of the first blank-delimited word of `x`; `wipe` reading the line `y` deletes the
directory with all three files exactly when the digest of the first word of `y` equals
the stored digest, in particular when `y = x`; otherwise it prints "Wrong password." and
leaves directory, ledger, log and configuration as they were.  For any store, `wipe`
leaves no directory only if a digest is stored and the digest of the word read equals
it. -/
theorem wipe_gated_by_digest (w : World) (x y : String) :
    (passwdSet w x).config = some { PasswordHash := sha256Hex (scanln x) }
      ∧ (sha256Hex (scanln y) = sha256Hex (scanln x) →
          wipe (passwdSet w x) y =
            { dir := false, db := none, log := [], config := none
              out := (passwdSet w x).out ++ ["Password: ", "Wiped.\n"] })
      ∧ (y = x → (wipe (passwdSet w x) y).dir = false)
      ∧ (sha256Hex (scanln y) ≠ sha256Hex (scanln x) →
          wipe (passwdSet w x) y =
            { passwdSet w x with
              out := (passwdSet w x).out ++ ["Password: ", "Wrong password.\n"] })
      ∧ ((wipe w y).dir = false →
          ∃ cfg, w.config = some cfg ∧ sha256Hex (scanln y) = cfg.PasswordHash) := by
  refine ⟨?_, ?_, ?_, ?_, ?_⟩
  · rw [passwdSet_eq]
  · intro h
    rw [passwdSet_eq]
    simp [wipe, print, println, dataDir, h]
  · intro h
    subst h
    rw [passwdSet_eq]
    simp [wipe, print, println, dataDir]
  · intro h
    rw [passwdSet_eq]
    simp [wipe, print, println, dataDir, h]
  · intro h
    cases hc : w.config with
    | none => simp [wipe, print, println, dataDir, hc] at h
    | some cfg =>
      refine ⟨cfg, rfl, ?_⟩
      by_contra hne
      simp [wipe, print, println, dataDir, hc, hne] at h

/-- C4 (as amended) at the password "secret": entering it again wipes the store. -/
theorem wipe_gated_by_digest_scenario :
    (wipe (passwdSet scenarioWorld "secret") "secret").dir = false
      ∧ wipe (passwdSet scenarioWorld "secret") "secret" =
          { dir := false, db := none, log := [], config := none
            out := (passwdSet scenarioWorld "secret").out ++ ["Password: ", "Wiped.\n"] } :=
  ⟨(wipe_gated_by_digest scenarioWorld "secret" "secret").2.2.1 rfl,
    (wipe_gated_by_digest scenarioWorld "secret" "secret").2.1 rfl⟩

/-- C4 as stated fails: the passwords "a" and "a c" differ; `passwdSet` reading "a"
stores the SHA-256 digest of "a", and the wipe that then reads "a c" is not denied: it
deletes the directory and all files. -/
theorem wipe_first_word_counterexample :
    "a c" ≠ "a"
      ∧ scanln "a" = "a"
      ∧ scanln "a c" = "a"
      ∧ (passwdSet scenarioWorld "a").config =
        some
          { PasswordHash := "ca978112ca1bbdcafac231b39a23dc4da786eff8147c4e72b9807785afee48bb" }
      ∧ wipe (passwdSet scenarioWorld "a") "a c" =
        { dir := false, db := none, log := [], config := none
          out := (passwdSet scenarioWorld "a").out ++ ["Password: ", "Wiped.\n"] } := by
  have h1 : scanln "a c" = "a" := by decide
  have h2 : scanln "a" = "a" := by decide
  refine ⟨by decide, h2, h1, ?_, ?_⟩
  · rw [passwdSet_eq, h2, sha256Hex_a]
  · rw [passwdSet_eq]
    simp [wipe, print, println, dataDir, h1, h2]

/-! ## C6: decimal text to hundredths and back -/

/-- C6 fails on the code: the numeral "0.29" is encoded as 28 hundredths and formatted
back as "0.28", because the double nearest to 0.29, multiplied by 100, is
28.999999999999996 and the conversion to `int64` truncates.  The three examples of the
specification do round-trip. -/
theorem centsFromString_truncates :
    parseFloat "0.29" = F64.fin false 5224175567749775 (-54)
      ∧ (parseFloat "0.29").mulNat 100 = F64.fin false 8162774324609023 (-48)
      ∧ centsFromString "0.29" = 28
      ∧ formatCents (centsFromString "0.29") = "0.28"
      ∧ formatCents (centsFromString "25") = "25.00"
      ∧ formatCents (centsFromString "25.5") = "25.50"
      ∧ formatCents (centsFromString "25.00") = "25.00" := by
  decide

/-! ## C8: the command dispatcher -/

/-- C8 fails on the code: the `switch` of `main` has no default case.  For every argument
vector whose command is not one of add, listunpaid, balance, pay, log, wipe, passwd,
help, `main` prints nothing and changes nothing (so at `cafetrack frobnicate`); the usage
text, and nothing else, is what `main` does when no command is given and for `help`. -/
theorem main_unrecognized_prints_nothing (now : Int) (stdin : String) (w : World) :
    (∀ args : List String, 2 ≤ args.length →
        args.getD 1 "" ∉
          ["add", "listunpaid", "balance", "pay", "log", "wipe", "passwd", "help"] →
        main now stdin w args = w)
      ∧ main now stdin w ["cafetrack", "frobnicate"] = w
      ∧ (∀ args : List String, args.length < 2 →
          main now stdin w args = { w with out := w.out ++ [usage ++ "\n"] })
      ∧ (∀ args : List String, 2 ≤ args.length → args.getD 1 "" = "help" →
          main now stdin w args = { w with out := w.out ++ [usage ++ "\n"] }) := by
  have hnone : ∀ args : List String, 2 ≤ args.length →
      args.getD 1 "" ∉
        ["add", "listunpaid", "balance", "pay", "log", "wipe", "passwd", "help"] →
      main now stdin w args = w := by
    intro args hlen hcmd
    simp only [List.mem_cons, List.mem_singleton, List.not_mem_nil, or_false, not_or] at hcmd
    obtain ⟨h1, h2, h3, h4, h5, h6, h7, h8⟩ := hcmd
    have hl : ¬ args.length < 2 := by omega
    simp only [main, dispatch, hl, if_false, h1, h2, h3, h4, h5, h6, h7, h8, run]
  refine ⟨hnone, hnone _ (by decide) (by decide), ?_, ?_⟩
  · intro args hlen
    simp only [main, dispatch, hlen, if_true, run, help, println]
  · intro args hlen hcmd
    have hl : ¬ args.length < 2 := by omega
    have e1 : ("help" : String) ≠ "add" := by decide
    have e2 : ("help" : String) ≠ "listunpaid" := by decide
    have e3 : ("help" : String) ≠ "balance" := by decide
    have e4 : ("help" : String) ≠ "pay" := by decide
    have e5 : ("help" : String) ≠ "log" := by decide
    have e6 : ("help" : String) ≠ "wipe" := by decide
    have e7 : ("help" : String) ≠ "passwd" := by decide
    simp only [main, dispatch, hl, if_false, hcmd, e1, e2, e3, e4, e5, e6, e7, if_true, run,
      help, println]

end Cafetrack
